import Mathlib

/-!
Shallow embedding of the `tree` Go package (github.com/simp-lee/tree).

The repository contains the generic implementation (`Tree[T]`, functional
load options, reflection-based display field) — the variant that
`tree_test.go` compiles against — plus an older map-payload variant of the
same design (`tree.go`).  The embedding below follows the generic
implementation; places where the legacy variant differs are noted in
comments.

Modelling conventions:
  * Go `int` is embedded as `Int` (no arithmetic that could overflow occurs:
    ids are only compared and stored).
  * The caller-supplied payload `T` is embedded as the projection the engine
    actually consumes: `Node.data : Option String` is the value of the
    display field (`reflect`'s `FieldByName(opt.DisplayField)` when it is a
    string, `none` otherwise).  The id / parent-id extractors are embedded
    by giving `Item` explicit `id` / `parentId` fields.
  * The sibling sort function is the default one (ascending by ID); all
    claims are about trees loaded with the default ordering.  With unique
    ids the unstable `sort.Slice` has a unique sorted result, embedded via
    `List.insertionSort`.
  * `map[int]*Node` is embedded as a list of nodes looked up by id
    (`FindNode`); after every reachable `Load` the ids are unique, so the
    list is a faithful finite map.  The `children` map built by `Load` is
    always exactly determined by the node set and the (default) ordering,
    so it is embedded by the derived function `GetChildren`.
  * Go's unbounded recursions (cycle check, ancestor loop, descendants,
    materialization, formatting) are embedded with explicit fuel
    `t.nodes.length + 1`; lemmas below show the fuel can never be exhausted
    in the states where Go runs them, so the fueled functions agree with
    the Go originals.
  * Mutation of the receiver is embedded by returning the new state:
    `Load : Tree → List Item → Tree × Except String Unit`.
-/

deriving instance DecidableEq for Except

namespace tree

/-- Embeds Go `Node[T]`: unique id, parent id (0 for a root) and the payload
projection used by the engine (display-field value). The `Children` field of
nodes stored in the index is never populated by the engine, so it is omitted
here; the materialized nested structure has its own type `NTree` below. -/
structure Node where
  id : Int
  parentId : Int
  data : Option String
  deriving Repr, DecidableEq

/-- Embeds one input record together with the values the two caller-supplied
extractors (`WithIDFunc`, `WithParentIDFunc`) return for it, and the display
field of its payload. -/
structure Item where
  id : Int
  parentId : Int
  data : Option String
  deriving Repr, DecidableEq

/-- Embeds Go `Tree[T]`. Only the node map is state; the `children` map is
rebuilt from it on every (successful or integrity-failed) `Load` and is
embedded as the derived function `GetChildren`. -/
structure Tree where
  nodes : List Node
  deriving Repr, DecidableEq

/-- Embeds `New[T]()`: empty maps. -/
def New : Tree := ⟨[]⟩

/-- Embeds the map lookup `t.nodes[id]` / the method `FindNode`. -/
def FindNode (t : Tree) (id : Int) : Option Node :=
  t.nodes.find? (fun n => n.id == id)

/-- The list of ids present in the index. -/
def ids (t : Tree) : List Int := t.nodes.map (·.id)

/-- Embeds `validateIDs`: empty input, non-positive id, duplicate id and
negative parent id are rejected, scanning in input order with the checks in
the source's order (id sign, then duplicate, then parent-id sign). -/
def validateIDs : List Item → List Int → Except String Unit
  | [], _ => .ok ()
  | it :: rest, idSet =>
    if it.id ≤ 0 then .error "ID must be positive"
    else if it.id ∈ idSet then .error "duplicate node ID"
    else if it.parentId < 0 then .error "parent ID cannot be negative"
    else validateIDs rest (it.id :: idSet)

/-- Embeds the first loop of `validateTree`: every non-zero parent id must
resolve to an existing node. -/
def checkParentIDs (t : Tree) : List Node → Except String Unit
  | [] => .ok ()
  | n :: rest =>
    if n.parentId ≠ 0 ∧ FindNode t n.parentId = none then
      .error "invalid parent ID"
    else checkParentIDs t rest

/-- Embeds `checkCircularRef`: walk the parent chain upward, failing when a
node is revisited.  Go recurses unboundedly; the embedding carries fuel, and
`checkCircularRef_ok_or_circular` below shows that with fuel
`t.nodes.length + 1` (the amount `validateTree` supplies), once
`checkParentIDs` has passed, neither the `fuel exhausted` outcome nor the
`nil node` outcome (Go's nil-pointer dereference) is reachable, so the
fueled function computes exactly what Go does. -/
def checkCircularRef (t : Tree) : Nat → Int → List Int → Except String Unit
  | 0, _, _ => .error "fuel exhausted"
  | fuel + 1, id, visited =>
    if id ∈ visited then .error "circular reference detected"
    else
      match FindNode t id with
      | none => .error "nil node"
      | some n =>
        if n.parentId = 0 then .ok ()
        else checkCircularRef t fuel n.parentId (id :: visited)

/-- Embeds the second loop of `validateTree`: run the circular-reference
check from every node, with a visited set cleared between starts. -/
def checkCircularAll (t : Tree) : List Int → Except String Unit
  | [] => .ok ()
  | id :: rest =>
    match checkCircularRef t (t.nodes.length + 1) id [] with
    | .ok _ => checkCircularAll t rest
    | .error e => .error e

/-- Embeds `validateTree`. -/
def validateTree (t : Tree) : Except String Unit :=
  match checkParentIDs t t.nodes with
  | .error e => .error e
  | .ok _ => checkCircularAll t (ids t)

/-- The node set `Load` builds from the input items. -/
def loadResult (items : List Item) : Tree :=
  ⟨items.map (fun it => ⟨it.id, it.parentId, it.data⟩)⟩

/-- Embeds `Load`.  The source validates ids first (old state intact on
those failures), then clears and repopulates `t.nodes` / `t.children`, and
only then runs `validateTree` — so an integrity failure (dangling parent or
circular reference) leaves the freshly built, invalid node set in place.
The returned pair is (state after the call, result). -/
def Load (t : Tree) (items : List Item) : Tree × Except String Unit :=
  if items.isEmpty then (t, .error "empty data")
  else
    match validateIDs items [] with
    | .error e => (t, .error e)
    | .ok _ =>
      match validateTree (loadResult items) with
      | .ok _ => (loadResult items, .ok ())
      | .error e => (loadResult items, .error e)

/-- Embeds `GetChildren` / the `children` map entry for `id`: the nodes whose
parent id is `id`, in the default order (ascending by id).  `Load` builds
the lists in input order and sorts them with `sort.Slice`; with unique ids
the sorted result is the unique ascending-by-id permutation. -/
def GetChildren (t : Tree) (id : Int) : List Node :=
  (t.nodes.filter (fun n => n.parentId == id)).insertionSort
    (fun a b => a.id ≤ b.id)

/-- Embeds `GetChildrenIDs`. -/
def GetChildrenIDs (t : Tree) (id : Int) : List Int :=
  (GetChildren t id).map (·.id)

/-- Embeds `GetParent`: `(nil, false)` when the node itself or its parent is
missing; the Go pair `(*Node, bool)` is embedded as `Option Node`. -/
def GetParent (t : Tree) (id : Int) : Option Node :=
  match FindNode t id with
  | none => none
  | some n => FindNode t n.parentId

/-- Embeds `GetParentID`: `(0, false)` when the node is missing, embedded as
`Option Int`. -/
def GetParentID (t : Tree) (id : Int) : Option Int :=
  match FindNode t id with
  | none => none
  | some n => some n.parentId

/-- Embeds the unbounded `for` loop of `GetAncestors`: look up the current
node; stop if it is missing or is a root; otherwise look up the parent, stop
if missing, else emit it and continue from it.  Fuel `t.nodes.length + 1`
is enough on every validated tree (`walkLen_lt` below), making the fueled
loop agree with Go's. -/
def getAncestorsLoop (t : Tree) : Nat → Int → List Node
  | 0, _ => []
  | fuel + 1, cur =>
    match FindNode t cur with
    | none => []
    | some n =>
      if n.parentId = 0 then []
      else
        match FindNode t n.parentId with
        | none => []
        | some p => p :: getAncestorsLoop t fuel p.id

/-- Embeds `GetAncestors`. -/
def GetAncestors (t : Tree) (id : Int) (includeSelf : Bool) : List Node :=
  (if includeSelf then (FindNode t id).toList else []) ++
    getAncestorsLoop t (t.nodes.length + 1) id

/-- Embeds `GetAncestorIDs`. -/
def GetAncestorIDs (t : Tree) (id : Int) (includeSelf : Bool) : List Int :=
  (GetAncestors t id includeSelf).map (·.id)

/-- Embeds `GetAncestorIDAtDepth`: guard, then index `parentIDs[depth-1]`
when `fromRoot` and `parentIDs[len-depth]` otherwise. -/
def GetAncestorIDAtDepth (t : Tree) (id depth : Int) (fromRoot : Bool) : Int :=
  let parentIDs := GetAncestorIDs t id false
  if depth > parentIDs.length ∨ depth ≤ 0 ∨ parentIDs.length = 0 then 0
  else if fromRoot then parentIDs.getD (depth - 1).toNat 0
  else parentIDs.getD (parentIDs.length - depth.toNat) 0

/-- Embeds `getDescendantsRecursive`: stop when a positive `maxDepth` is
reached, else emit the children and recurse into each.  Fuel replaces Go's
unbounded recursion; `t.nodes.length + 1` is enough on validated trees
(established inside `getDescendants_mem` below). -/
def getDescendantsRecursive (t : Tree) :
    Nat → Int → Int → Int → List Node
  | 0, _, _, _ => []
  | fuel + 1, id, currentDepth, maxDepth =>
    if maxDepth > 0 ∧ currentDepth ≥ maxDepth then []
    else if GetChildren t id = [] then []
    else
      GetChildren t id ++
        ((GetChildren t id).map
          (fun c => getDescendantsRecursive t fuel c.id (currentDepth + 1)
            maxDepth)).flatten

/-- Embeds `GetDescendants` (`maxDepth < 0` returns nil). -/
def GetDescendants (t : Tree) (id maxDepth : Int) : List Node :=
  if maxDepth < 0 then []
  else getDescendantsRecursive t (t.nodes.length + 1) id 0 maxDepth

/-- Embeds `GetDescendantsIDs`. -/
def GetDescendantsIDs (t : Tree) (id maxDepth : Int) : List Int :=
  (GetDescendants t id maxDepth).map (·.id)

/-- Embeds `GetSiblings`: the children list of the node's parent id,
optionally with the node itself filtered out; nil when the node is
unknown. -/
def GetSiblings (t : Tree) (id : Int) (includeSelf : Bool) : List Node :=
  match FindNode t id with
  | none => []
  | some n =>
    if includeSelf then GetChildren t n.parentId
    else (GetChildren t n.parentId).filter (fun s => s.id != id)

/-- Embeds `GetSiblingsIDs`. -/
def GetSiblingsIDs (t : Tree) (id : Int) (includeSelf : Bool) : List Int :=
  (GetSiblings t id includeSelf).map (·.id)

/-- The materialized nested structure produced by `ToTree`: a node value
with a list of fully materialized children. -/
inductive NTree : Type where
  | mk : Int → Int → Option String → List NTree → NTree

/-- Embeds `buildTreeRecursive`: a node with no children is returned as is;
otherwise a fresh node is built whose children are materialized
recursively.  Fuel replaces Go's unbounded recursion. -/
def buildTreeRecursive (t : Tree) : Nat → Node → NTree
  | 0, n => .mk n.id n.parentId n.data []
  | fuel + 1, n =>
    if GetChildren t n.id = [] then .mk n.id n.parentId n.data []
    else .mk n.id n.parentId n.data
      ((GetChildren t n.id).map (buildTreeRecursive t fuel))

/-- Embeds `ToTree`: nil when the root id is unknown. -/
def ToTree (t : Tree) (rootID : Int) : Option NTree :=
  match FindNode t rootID with
  | none => none
  | some root => some (buildTreeRecursive t (t.nodes.length + 1) root)

/-- Embeds `FormatOption` (the display field is already projected into
`Node.data`, see the header comment). -/
structure FormatOption where
  indent : String
  icons : List String
  deriving Repr, DecidableEq

/-- Embeds `DefaultFormatOption`. -/
def DefaultFormatOption : FormatOption :=
  { indent := " ", icons := ["│", "├ ", "└ "] }

/-- Embeds `FormattedNode`. -/
structure FormattedNode where
  node : Node
  displayName : String
  deriving Repr, DecidableEq

/-- Embeds the `for i, child := range children` loop of
`formatTreeRecursive`: per child compute the `pre` icon from last-ness, the
`pad` continuation icon, the display name `space + pre + label`, then recurse
with `space + pad + indent`.  The recursive call back into
`formatTreeRecursive` is passed as `next` (it carries one fuel less). -/
def formatChildrenLoop (opt : FormatOption)
    (next : Int → String → List FormattedNode) (space : String) :
    List Node → List FormattedNode
  | [] => []
  | child :: rest =>
    let isLast := rest = []
    let pre :=
      if isLast then opt.icons.getD 2 "" else opt.icons.getD 1 ""
    let pad :=
      if isLast then ""
      else if space ≠ "" then opt.icons.getD 0 "" else ""
    let displayName := space ++ pre ++ (child.data.getD "")
    { node := child, displayName := displayName } ::
      (next child.id (space ++ pad ++ opt.indent) ++
        formatChildrenLoop opt next space rest)

/-- Embeds `formatTreeRecursive` of the generic implementation: on the
outermost call (`space == ""`) the root node itself is emitted with no
prefix, provided its display field is a string, and `space` becomes the
indent unit; then the children are processed in order.  (The legacy
`tree.go` variant never emits the root node.)  The reflection lookup
`FieldByName(...)` returning a string is embedded by `Node.data` being
`some _`. -/
def formatTreeRecursive (t : Tree) (opt : FormatOption) :
    Nat → Int → String → List FormattedNode
  | 0, _, _ => []
  | fuel + 1, nodeID, space =>
    match FindNode t nodeID with
    | none => []
    | some node =>
      let rootOut : List FormattedNode :=
        if space = "" then
          match node.data with
          | some s => [{ node := node, displayName := s }]
          | none => []
        else []
      let space := if space = "" then opt.indent else space
      let children := GetChildren t nodeID
      if children = [] then rootOut
      else
        rootOut ++
          formatChildrenLoop opt (formatTreeRecursive t opt fuel) space children

/-- Embeds `FormatTreeDisplay`: apply the defaults, then run the recursion
with the empty prefix. -/
def FormatTreeDisplay (t : Tree) (rootID : Int) (opt : FormatOption) :
    List FormattedNode :=
  let opt : FormatOption :=
    { indent := if opt.indent = "" then DefaultFormatOption.indent else opt.indent,
      icons := if opt.icons.length ≠ 3 then DefaultFormatOption.icons else opt.icons }
  formatTreeRecursive t opt (t.nodes.length + 1) rootID ""

/-! Specification-side definitions.  These are not translations of source
functions; they give the vocabulary (parent chains, reachability, pre-order
flattening) in which the claims about the source functions are stated. -/

/-- The id reached from `start` after following `parentId` links `k` times.
`none` when the walk falls off the index before `k` steps.  A root's
1-step ancestor is the virtual id `0`, matching the claims' convention that
the children of `0` are the roots. -/
def kthAncestor (t : Tree) : Nat → Int → Option Int
  | 0, start => some start
  | k + 1, start =>
    match FindNode t start with
    | none => none
    | some n => kthAncestor t k n.parentId

/-- The ids visited when following `parentId` links from `id` (starting with
`id` itself) until a root or a missing node, truncated by fuel. -/
def chainIds (t : Tree) : Nat → Int → List Int
  | 0, _ => []
  | fuel + 1, id =>
    id ::
      (match FindNode t id with
      | none => []
      | some n => if n.parentId = 0 then [] else chainIds t fuel n.parentId)

/-- The number of upward steps from `id` until a root or a missing node,
capped by fuel: the walk genuinely terminates exactly when
`walkLen t fuel id < fuel`. -/
def walkLen (t : Tree) : Nat → Int → Nat
  | 0, _ => 0
  | fuel + 1, id =>
    match FindNode t id with
    | none => 0
    | some n => if n.parentId = 0 then 0 else walkLen t fuel n.parentId + 1

mutual

/-- Pre-order flattening of a materialized subtree into its list of ids. -/
def flattenTree : NTree → List Int
  | .mk i _ _ cs => i :: flattenForest cs

/-- Pre-order flattening of a list of materialized subtrees. -/
def flattenForest : List NTree → List Int
  | [] => []
  | c :: cs => flattenTree c ++ flattenForest cs

end

/-! Heap-level model.  The functional model above abstracts Go pointers
away; the aliasing claim about `buildTreeRecursive` is about pointer
identity, so the relevant functions are additionally embedded against an
explicit allocation heap: every `&Node{...}` allocation appends a cell to
`heap`, and a cell's address is its index.  Allocation order inside
`buildTreeRecursive` is rearranged (children before the parent cell), which
is unobservable: Go never compares or exposes addresses. -/

/-- A heap cell: one allocated `Node` object.  `children` holds the
addresses of the child objects (always `[]` for the cells the index
allocates, since `Load` never populates `Node.Children`). -/
structure HNode where
  id : Int
  parentId : Int
  data : Option String
  children : List Nat
  deriving Repr, DecidableEq

/-- Heap-level tree state: all cells ever allocated (old cells survive a
reload — Go references keep them alive), the live `nodes` map
(id → address) and the live `children` map (parent id → child addresses). -/
structure HTree where
  heap : List HNode
  nodesIdx : List (Int × Nat)
  childrenIdx : List (Int × List Nat)
  deriving Repr, DecidableEq

/-- Heap-level `New`. -/
def hNew : HTree := ⟨[], [], []⟩

/-- Heap-level `t.nodes[id]`: the address of the live node with this id. -/
def hFindAddr (t : HTree) (id : Int) : Option Nat :=
  (t.nodesIdx.find? (fun p => p.1 == id)).map (·.2)

/-- Heap-level `t.children[id]`. -/
def hGetChildren (t : HTree) (id : Int) : List Nat :=
  ((t.childrenIdx.find? (fun p => p.1 == id)).map (·.2)).getD []

/-- The children list `Load` builds for parent `pid` from `items`, as
addresses: input order, then sorted ascending by id (default comparator),
where item `i` is allocated at address `base + i`. -/
def childAddrsFor (base : Nat) (items : List Item) (pid : Int) : List Nat :=
  (((items.enum.filter (fun p => p.2.parentId == pid)).map
      (fun p => (p.2.id, base + p.1))).insertionSort
    (fun a b => a.1 ≤ b.1)).map (·.2)

/-- The state `hLoad` builds on non-format-error inputs: one fresh cell per
item appended to the heap (the node construction loop), the id → address
map, and the per-parent sorted children-address lists. -/
def hLoadResult (t : HTree) (items : List Item) : HTree :=
  { heap := t.heap ++ items.map (fun it => ⟨it.id, it.parentId, it.data, []⟩),
    nodesIdx := items.enum.map (fun p => (p.2.id, t.heap.length + p.1)),
    childrenIdx :=
      (items.map (·.parentId)).dedup.map
        (fun pid => (pid, childAddrsFor t.heap.length items pid)) }

/-- Heap-level `Load`: identical control flow to `Load`, with the node
construction loop embedded as allocation of one fresh cell per item.  The
validation steps are the very computations of the functional model, run on
the view `loadResult items` that the new maps denote. -/
def hLoad (t : HTree) (items : List Item) : HTree × Except String Unit :=
  if items.isEmpty then (t, .error "empty data")
  else
    match validateIDs items [] with
    | .error e => (t, .error e)
    | .ok _ =>
      match validateTree (loadResult items) with
      | .ok _ => (hLoadResult t items, .ok ())
      | .error e => (hLoadResult t items, .error e)

/-- Folds a per-child state-threading step over a children list, returning
the final heap and the produced addresses (the `for i, child := range
children` loop of `buildTreeRecursive`). -/
def hBuildFold (next : List HNode → Nat → List HNode × Nat) :
    List HNode → List Nat → List HNode × List Nat
  | heap, [] => (heap, [])
  | heap, a :: rest =>
    ((hBuildFold next (next heap a).1 rest).1,
      (next heap a).2 :: (hBuildFold next (next heap a).1 rest).2)

/-- Heap-level `buildTreeRecursive`: a node without children is returned by
address — the very cell the live index owns (no copy); otherwise the
children are materialized and one fresh cell is allocated for the copy. -/
def hBuildRec (t : HTree) : Nat → List HNode → Nat → List HNode × Nat
  | 0, heap, addr => (heap, addr)
  | fuel + 1, heap, addr =>
    match heap.get? addr with
    | none => (heap, addr)
    | some nd =>
      if hGetChildren t nd.id = [] then (heap, addr)
      else
        ((hBuildFold (hBuildRec t fuel) heap (hGetChildren t nd.id)).1 ++
            [⟨nd.id, nd.parentId, nd.data,
              (hBuildFold (hBuildRec t fuel) heap (hGetChildren t nd.id)).2⟩],
          (hBuildFold (hBuildRec t fuel) heap (hGetChildren t nd.id)).1.length)

/-- Heap-level `ToTree`: returns the (possibly grown) heap and the address
of the materialized root, `none` when the root id is unknown. -/
def hToTree (t : HTree) (rootID : Int) : List HNode × Option Nat :=
  match hFindAddr t rootID with
  | none => (t.heap, none)
  | some a =>
    ((hBuildRec t (t.nodesIdx.length + 1) t.heap a).1,
      some (hBuildRec t (t.nodesIdx.length + 1) t.heap a).2)

/-- Reads the nested value structure stored at an address: what a caller
holding the returned pointer observes when it walks the structure. -/
def hReadTree (heap : List HNode) : Nat → Nat → Option NTree
  | 0, _ => none
  | fuel + 1, a =>
    match heap.get? a with
    | none => none
    | some nd =>
      (nd.children.mapM (hReadTree heap fuel)).map
        (fun cs => .mk nd.id nd.parentId nd.data cs)

/-- Every child address stored in a heap cell is allocated. -/
def HeapClosed (heap : List HNode) : Prop :=
  ∀ cell ∈ heap, ∀ a ∈ cell.children, a < heap.length

/-- Well-formedness of a heap state: stored addresses point into the
heap. -/
def HWF (t : HTree) : Prop :=
  HeapClosed t.heap ∧
  (∀ p ∈ t.nodesIdx, p.2 < t.heap.length) ∧
  (∀ q ∈ t.childrenIdx, ∀ a ∈ q.2, a < t.heap.length)

/-- The tree is in a successfully loaded state (image of some successful
`Load`). -/
def Loaded (t : Tree) : Prop :=
  ∃ t₀ items, Load t₀ items = (t, .ok ())

/-! Concrete inputs used to evaluate the model where a claim is settled at
an explicit input (spec §8's example records and failing inputs). -/

/-- The single-root tree loaded from `{(1,0)}`. -/
def rootOnlyTree : Tree := (Load New [⟨1, 0, none⟩]).1

/-- The result of reloading `rootOnlyTree` with the mutual-parent input
`{(1,2),(2,1)}` — the `Load` that must fail with a circular-reference
error. -/
def circularReload : Tree × Except String Unit :=
  Load rootOnlyTree [⟨1, 2, none⟩, ⟨2, 1, none⟩]

/-- The three-node chain `1 ← 2 ← 4` (node 4's ancestor-id list is
`[2, 1]`). -/
def chainTree : Tree :=
  (Load New [⟨1, 0, none⟩, ⟨2, 1, none⟩, ⟨4, 2, none⟩]).1

/-- The spec §8 example records `{(1,0),(2,1),(3,1),(4,2),(5,2),(6,3)}`,
with each node's display field set to the label placeholder the spec uses
(`Root` for the root, `<n>` for node `n`). -/
def exampleItems : List Item :=
  [⟨1, 0, some "Root"⟩, ⟨2, 1, some "<2>"⟩, ⟨3, 1, some "<3>"⟩,
   ⟨4, 2, some "<4>"⟩, ⟨5, 2, some "<5>"⟩, ⟨6, 3, some "<6>"⟩]

/-- The tree loaded from the spec §8 example records. -/
def exampleTree : Tree := (Load New exampleItems).1

/-! Basic lemmas about the index. -/

lemma FindNode_some {t : Tree} {j : Int} {n : Node}
    (h : FindNode t j = some n) : n ∈ t.nodes ∧ n.id = j := by
  refine ⟨List.mem_of_find?_eq_some h, ?_⟩
  have := List.find?_some h
  simpa using this

lemma find?_id_of_mem {l : List Node} (hnd : (l.map (·.id)).Nodup) {n : Node}
    (hn : n ∈ l) : l.find? (fun m => m.id == n.id) = some n := by
  induction l with
  | nil => cases hn
  | cons a l ih =>
    simp only [List.map_cons, List.nodup_cons, List.mem_map] at hnd
    rcases List.mem_cons.mp hn with rfl | hn
    · simp [List.find?]
    · have hne : (a.id == n.id) = false := by
        simp only [beq_eq_false_iff_ne, ne_eq]
        intro hcontra
        exact hnd.1 ⟨n, hn, hcontra.symm⟩
      rw [List.find?, hne]
      exact ih hnd.2 hn

lemma FindNode_self {t : Tree} (hnd : (ids t).Nodup) {n : Node}
    (hn : n ∈ t.nodes) : FindNode t n.id = some n :=
  find?_id_of_mem hnd hn

lemma FindNode_of_mem_ids {t : Tree} {j : Int} (h : j ∈ ids t) :
    ∃ m, FindNode t j = some m := by
  rcases List.mem_map.mp h with ⟨n, hn, rfl⟩
  rcases hf : FindNode t n.id with _ | m
  · rw [FindNode, List.find?_eq_none] at hf
    have := hf n hn
    simp at this
  · exact ⟨m, rfl⟩

lemma FindNode_zero {t : Tree} (hpos : ∀ n ∈ t.nodes, 0 < n.id) :
    FindNode t 0 = none := by
  rw [FindNode, List.find?_eq_none]
  intro a ha
  have := hpos a ha
  simp only [beq_iff_eq]
  omega

lemma mem_GetChildren {t : Tree} {p : Int} {x : Node} :
    x ∈ GetChildren t p ↔ x ∈ t.nodes ∧ x.parentId = p := by
  rw [GetChildren, (List.perm_insertionSort _ _).mem_iff, List.mem_filter]
  simp

/-! Lemmas extracting the validation facts from a successful `Load`. -/

lemma validateIDs_ok {items : List Item} :
    ∀ {acc : List Int}, validateIDs items acc = .ok () →
      (items.map (·.id)).Nodup ∧ (∀ it ∈ items, 0 < it.id ∧ 0 ≤ it.parentId) ∧
        ∀ it ∈ items, it.id ∉ acc := by
  induction items with
  | nil => simp
  | cons a rest ih =>
    intro acc h
    rw [validateIDs] at h
    split at h
    · cases h
    · split at h
      · cases h
      · split at h
        · cases h
        · rename_i h1 h2 h3
          obtain ⟨hnd, hrange, hacc⟩ := ih h
          refine ⟨?_, ?_, ?_⟩
          · refine List.nodup_cons.mpr ⟨?_, hnd⟩
            intro hmem
            rcases List.mem_map.mp hmem with ⟨it, hit, hid⟩
            have hne := hacc it hit
            rw [List.mem_cons] at hne
            push_neg at hne
            exact hne.1 hid
          · intro it hit
            rcases List.mem_cons.mp hit with rfl | hit
            · exact ⟨by omega, by omega⟩
            · exact hrange it hit
          · intro it hit
            rcases List.mem_cons.mp hit with rfl | hit
            · exact h2
            · intro hmem
              exact (hacc it hit) (List.mem_cons_of_mem _ hmem)

lemma Load_ok {t₀ : Tree} {items : List Item} {t : Tree}
    (h : Load t₀ items = (t, .ok ())) :
    t.nodes = items.map (fun it => ⟨it.id, it.parentId, it.data⟩) ∧
      validateIDs items [] = .ok () ∧ validateTree t = .ok () := by
  rw [Load] at h
  split at h
  · exact absurd (congrArg Prod.snd h) (by simp)
  · split at h
    · exact absurd (congrArg Prod.snd h) (by simp)
    · rename_i u hv
      cases u
      split at h
      · rename_i u2 hvt
        cases u2
        have ht : loadResult items = t := congrArg Prod.fst h
        refine ⟨?_, hv, ?_⟩
        · rw [← ht]
          rfl
        · rw [← ht]
          exact hvt
      · exact absurd (congrArg Prod.snd h) (by simp)

lemma Loaded.ids_nodup {t : Tree} (h : Loaded t) : (ids t).Nodup := by
  obtain ⟨t₀, items, hload⟩ := h
  obtain ⟨hn, hv, -⟩ := Load_ok hload
  obtain ⟨hnd, -, -⟩ := validateIDs_ok hv
  rw [ids, hn, List.map_map]
  exact hnd

lemma Loaded.pos {t : Tree} (h : Loaded t) :
    ∀ n ∈ t.nodes, 0 < n.id := by
  obtain ⟨t₀, items, hload⟩ := h
  obtain ⟨hn, hv, -⟩ := Load_ok hload
  obtain ⟨-, hrange, -⟩ := validateIDs_ok hv
  intro n hmem
  rw [hn] at hmem
  rcases List.mem_map.mp hmem with ⟨it, hit, rfl⟩
  exact (hrange it hit).1

lemma Loaded.validateTree_ok {t : Tree} (h : Loaded t) :
    validateTree t = .ok () := by
  obtain ⟨t₀, items, hload⟩ := h
  exact (Load_ok hload).2.2

lemma checkParentIDs_ok {t : Tree} {l : List Node}
    (h : checkParentIDs t l = .ok ()) :
    ∀ n ∈ l, n.parentId ≠ 0 → FindNode t n.parentId ≠ none := by
  induction l with
  | nil => simp
  | cons a rest ih =>
    rw [checkParentIDs] at h
    split at h
    · cases h
    · rename_i hc
      intro n hn hnz
      rcases List.mem_cons.mp hn with rfl | hn
      · intro hnone
        exact hc ⟨hnz, hnone⟩
      · exact ih h n hn hnz

lemma validateTree_ok_parts {t : Tree} (h : validateTree t = .ok ()) :
    checkParentIDs t t.nodes = .ok () ∧ checkCircularAll t (ids t) = .ok () := by
  rw [validateTree] at h
  split at h
  · cases h
  · rename_i u hp
    cases u
    exact ⟨hp, h⟩

lemma checkCircularAll_ok {t : Tree} {l : List Int}
    (h : checkCircularAll t l = .ok ()) :
    ∀ id ∈ l, checkCircularRef t (t.nodes.length + 1) id [] = .ok () := by
  induction l with
  | nil => simp
  | cons a rest ih =>
    rw [checkCircularAll] at h
    split at h
    · rename_i u heq
      cases u
      intro id hid
      rcases List.mem_cons.mp hid with rfl | hid
      · exact heq
      · exact ih h id hid
    · cases h

/-- For loaded trees, every non-root node's parent id resolves. -/
lemma Loaded.parentsExist {t : Tree} (h : Loaded t) :
    ∀ n ∈ t.nodes, n.parentId ≠ 0 → FindNode t n.parentId ≠ none :=
  checkParentIDs_ok (validateTree_ok_parts h.validateTree_ok).1

/-- For loaded trees, the circular-reference check succeeds from every
node. -/
lemma Loaded.circular_ok {t : Tree} (h : Loaded t) :
    ∀ id ∈ ids t, checkCircularRef t (t.nodes.length + 1) id [] = .ok () :=
  checkCircularAll_ok (validateTree_ok_parts h.validateTree_ok).2

/-! Consequences of a successful circular-reference check: the upward walk
terminates within the fuel and never revisits a node. -/

lemma checkCircularRef_ok_walkLen {t : Tree} :
    ∀ {f : Nat} {id : Int} {visited : List Int},
      checkCircularRef t f id visited = .ok () → walkLen t f id < f := by
  intro f
  induction f with
  | zero =>
    intro id visited h
    cases h
  | succ f ih =>
    intro id visited h
    rw [checkCircularRef] at h
    split at h
    · cases h
    · rcases hf : FindNode t id with _ | n
      · rw [hf] at h
        cases h
      · rw [hf] at h
        dsimp only at h
        rw [walkLen, hf]
        dsimp only
        by_cases hp : n.parentId = 0
        · simp [hp]
        · rw [if_neg hp] at h ⊢
          exact Nat.succ_lt_succ (ih h)

lemma checkCircularRef_ok_nodup {t : Tree} :
    ∀ {f : Nat} {id : Int} {visited : List Int},
      checkCircularRef t f id visited = .ok () →
      (chainIds t f id).Nodup ∧ ∀ v ∈ visited, v ∉ chainIds t f id := by
  intro f
  induction f with
  | zero =>
    intro id visited h
    cases h
  | succ f ih =>
    intro id visited h
    rw [checkCircularRef] at h
    split at h
    · cases h
    · rename_i hvis
      rcases hf : FindNode t id with _ | n
      · rw [hf] at h
        cases h
      · rw [hf] at h
        dsimp only at h
        rw [chainIds, hf]
        dsimp only
        by_cases hp : n.parentId = 0
        · rw [if_pos hp]
          refine ⟨List.nodup_cons.mpr ⟨by simp, List.nodup_nil⟩, ?_⟩
          intro v hv
          simp only [List.mem_cons, List.not_mem_nil, or_false]
          intro hveq
          exact hvis (hveq ▸ hv)
        · rw [if_neg hp] at h ⊢
          obtain ⟨hnd, hdisj⟩ := ih h
          have hid : id ∉ chainIds t f n.parentId :=
            hdisj id (List.mem_cons_self _ _)
          refine ⟨List.nodup_cons.mpr ⟨hid, hnd⟩, ?_⟩
          intro v hv
          rw [List.mem_cons]
          push_neg
          refine ⟨?_, hdisj v (List.mem_cons_of_mem _ hv)⟩
          intro hveq
          exact hvis (hveq ▸ hv)

lemma chainIds_subset {t : Tree}
    (hpe : ∀ n ∈ t.nodes, n.parentId ≠ 0 → FindNode t n.parentId ≠ none) :
    ∀ {f : Nat} {id : Int}, id ∈ ids t → ∀ x ∈ chainIds t f id, x ∈ ids t := by
  intro f
  induction f with
  | zero =>
    intro id _ x hx
    cases hx
  | succ f ih =>
    intro id hid x hx
    rw [chainIds] at hx
    rcases List.mem_cons.mp hx with rfl | hx
    · exact hid
    · rcases hf : FindNode t id with _ | n
      · rw [hf] at hx
        cases hx
      · rw [hf] at hx
        dsimp only at hx
        by_cases hp : n.parentId = 0
        · rw [if_pos hp] at hx
          cases hx
        · rw [if_neg hp] at hx
          obtain ⟨hnmem, -⟩ := FindNode_some hf
          rcases hq : FindNode t n.parentId with _ | p
          · exact absurd hq (hpe n hnmem hp)
          · obtain ⟨hpmem, hpid⟩ := FindNode_some hq
            exact ih (hpid ▸ List.mem_map_of_mem (·.id) hpmem) x hx

lemma chainIds_getLast {t : Tree}
    (hpe : ∀ n ∈ t.nodes, n.parentId ≠ 0 → FindNode t n.parentId ≠ none) :
    ∀ {f : Nat} {id : Int} {m : Node}, FindNode t id = some m →
      walkLen t f id < f →
      ∃ l nl, (chainIds t f id).getLast? = some l ∧
        FindNode t l = some nl ∧ nl.parentId = 0 := by
  intro f
  induction f with
  | zero =>
    intro id m _ hw
    omega
  | succ f ih =>
    intro id m hm hw
    rw [chainIds, hm]
    dsimp only
    by_cases hp : m.parentId = 0
    · rw [if_pos hp]
      exact ⟨id, m, rfl, hm, hp⟩
    · rw [if_neg hp]
      rw [walkLen, hm] at hw
      dsimp only at hw
      rw [if_neg hp] at hw
      have hw' : walkLen t f m.parentId < f := by omega
      obtain ⟨hmmem, -⟩ := FindNode_some hm
      rcases hq : FindNode t m.parentId with _ | p
      · exact absurd hq (hpe m hmmem hp)
      · obtain ⟨l, nl, hlast, hfl, hpl⟩ := ih hq hw'
        refine ⟨l, nl, ?_, hfl, hpl⟩
        rcases f with _ | f'
        · omega
        · rw [chainIds] at hlast ⊢
          rw [List.getLast?_cons_cons]
          exact hlast

/-- Fuel adequacy: with the fuel `validateTree` supplies, once the parent
check has passed, the fueled `checkCircularRef` reaches the verdict the
unbounded Go recursion computes — it never hits the artificial
`fuel exhausted` / `nil node` outcomes. -/
lemma checkCircularRef_ok_or_circular {t : Tree}
    (hpe : ∀ n ∈ t.nodes, n.parentId ≠ 0 → FindNode t n.parentId ≠ none) :
    ∀ {f : Nat} {id : Int} {visited : List Int}, id ∈ ids t → visited.Nodup →
      (∀ v ∈ visited, v ∈ ids t) → (ids t).length < f + visited.length →
      checkCircularRef t f id visited = .ok () ∨
        checkCircularRef t f id visited = .error "circular reference detected" := by
  intro f
  induction f with
  | zero =>
    intro id visited hid hnd hsub hlen
    exfalso
    have := (List.subperm_of_subset hnd hsub).length_le
    omega
  | succ f ih =>
    intro id visited hid hnd hsub hlen
    rw [checkCircularRef]
    by_cases hv : id ∈ visited
    · right
      rw [if_pos hv]
    · rw [if_neg hv]
      obtain ⟨n, hn⟩ := FindNode_of_mem_ids hid
      rw [hn]
      dsimp only
      by_cases hp : n.parentId = 0
      · left
        rw [if_pos hp]
      · rw [if_neg hp]
        have hnm := (FindNode_some hn).1
        have hpid : n.parentId ∈ ids t := by
          rcases hq : FindNode t n.parentId with _ | p
          · exact absurd hq (hpe n hnm hp)
          · obtain ⟨hpm, hpi⟩ := FindNode_some hq
            exact hpi ▸ List.mem_map_of_mem (·.id) hpm
        refine ih hpid (List.nodup_cons.mpr ⟨hv, hnd⟩) ?_ ?_
        · intro v hvm
          rcases List.mem_cons.mp hvm with rfl | hvm
          exacts [hid, hsub v hvm]
        · rw [List.length_cons]
          omega

/-- C2: after every successful `Load` the index is acyclic — following
`parentId` links from any node visits pairwise distinct nodes, at most as
many as the node count, and ends at a node with `parentId = 0`. -/
theorem load_index_acyclic (t₀ : Tree) (items : List Item) (t : Tree)
    (h : Load t₀ items = (t, .ok ())) :
    ∀ nd ∈ t.nodes,
      (chainIds t (t.nodes.length + 1) nd.id).Nodup ∧
      (chainIds t (t.nodes.length + 1) nd.id).length ≤ t.nodes.length ∧
      ∃ l nl, (chainIds t (t.nodes.length + 1) nd.id).getLast? = some l ∧
        FindNode t l = some nl ∧ nl.parentId = 0 := by
  intro nd hnd
  have hl : Loaded t := ⟨t₀, items, h⟩
  have hpe := hl.parentsExist
  have hidm : nd.id ∈ ids t := List.mem_map_of_mem (·.id) hnd
  have hcc := hl.circular_ok nd.id hidm
  refine ⟨(checkCircularRef_ok_nodup hcc).1, ?_, ?_⟩
  · have hle := (List.subperm_of_subset (checkCircularRef_ok_nodup hcc).1
      (chainIds_subset hpe hidm)).length_le
    simpa [ids] using hle
  · obtain ⟨m, hm⟩ := FindNode_of_mem_ids hidm
    exact chainIds_getLast hpe hm (checkCircularRef_ok_walkLen hcc)

/-- Witness for `load_index_acyclic` at the one-node input `{(1,0)}`. -/
theorem load_index_acyclic_witness :
    (chainIds ⟨[⟨1, 0, none⟩]⟩ 2 1).Nodup ∧
    (chainIds ⟨[⟨1, 0, none⟩]⟩ 2 1).length ≤ 1 ∧
    ∃ l nl, (chainIds ⟨[⟨1, 0, none⟩]⟩ 2 1).getLast? = some l ∧
      FindNode ⟨[⟨1, 0, none⟩]⟩ l = some nl ∧ nl.parentId = 0 :=
  load_index_acyclic New [⟨1, 0, none⟩] ⟨[⟨1, 0, none⟩]⟩ (by decide)
    ⟨1, 0, none⟩ (by decide)

/-! Lemmas about the `GetAncestors` loop. -/

lemma getAncestorsLoop_chain {t : Tree} :
    ∀ {f : Nat} {id : Int} {n : Node}, FindNode t id = some n →
      List.Chain' (fun a b => b.id = a.parentId) (n :: getAncestorsLoop t f id) := by
  intro f
  induction f with
  | zero =>
    intro id n _
    simp [getAncestorsLoop]
  | succ f ih =>
    intro id n hn
    rw [getAncestorsLoop, hn]
    dsimp only
    by_cases hp : n.parentId = 0
    · rw [if_pos hp]
      simp
    · rw [if_neg hp]
      rcases hq : FindNode t n.parentId with _ | p
      · simp
      · obtain ⟨-, hpi⟩ := FindNode_some hq
        exact List.chain'_cons.mpr ⟨hpi, ih (hpi ▸ hq)⟩

lemma getAncestorsLoop_getLast {t : Tree}
    (hpe : ∀ n ∈ t.nodes, n.parentId ≠ 0 → FindNode t n.parentId ≠ none) :
    ∀ {f : Nat} {id : Int} {n : Node}, FindNode t id = some n →
      walkLen t f id < f →
      ∃ l, (n :: getAncestorsLoop t f id).getLast? = some l ∧ l.parentId = 0 := by
  intro f
  induction f with
  | zero =>
    intro id n _ hw
    omega
  | succ f ih =>
    intro id n hn hw
    rw [getAncestorsLoop, hn]
    dsimp only
    rw [walkLen, hn] at hw
    dsimp only at hw
    by_cases hp : n.parentId = 0
    · rw [if_pos hp]
      exact ⟨n, rfl, hp⟩
    · rw [if_neg hp] at hw ⊢
      have hw' : walkLen t f n.parentId < f := by omega
      rcases hq : FindNode t n.parentId with _ | p
      · exact absurd hq (hpe n (FindNode_some hn).1 hp)
      · obtain ⟨-, hpi⟩ := FindNode_some hq
        obtain ⟨l, hl, h0⟩ := ih (hpi ▸ hq) (by rw [hpi]; exact hw')
        exact ⟨l, by rw [List.getLast?_cons_cons]; exact hl, h0⟩

/-- For loaded trees the upward walk from any id terminates within the
fuel the embedded operations use. -/
lemma Loaded.walkLen_lt {t : Tree} (h : Loaded t) (id : Int) :
    walkLen t (t.nodes.length + 1) id < t.nodes.length + 1 := by
  rcases hf : FindNode t id with _ | n
  · rw [walkLen, hf]
    dsimp only
    omega
  · have hidm : id ∈ ids t := by
      obtain ⟨hnm, hni⟩ := FindNode_some hf
      exact hni ▸ List.mem_map_of_mem (·.id) hnm
    exact checkCircularRef_ok_walkLen (h.circular_ok id hidm)

/-- C6: `GetAncestors` lists the node itself first when `includeSelf` and
the id exists; each following entry is the parent of the one before it
(nearest relative first, most distant last); a root has no proper
ancestors; and the walk ends at a root. -/
theorem getAncestors_spec (t₀ : Tree) (items : List Item) (t : Tree)
    (h : Load t₀ items = (t, .ok ())) (id : Int) :
    GetAncestors t id true = (FindNode t id).toList ++ GetAncestors t id false ∧
    (∀ nd, FindNode t id = some nd → (GetAncestors t id true).head? = some nd) ∧
    (∀ nd, FindNode t id = some nd → nd.parentId = 0 →
      GetAncestors t id false = []) ∧
    List.Chain' (fun a b => b.id = a.parentId) (GetAncestors t id true) ∧
    (∀ l, (GetAncestors t id true).getLast? = some l → l.parentId = 0) := by
  have hl : Loaded t := ⟨t₀, items, h⟩
  refine ⟨by simp [GetAncestors], ?_, ?_, ?_, ?_⟩
  · intro nd hnd
    simp [GetAncestors, hnd]
  · intro nd hnd h0
    rw [GetAncestors, getAncestorsLoop, hnd]
    simp [h0]
  · rcases hf : FindNode t id with _ | n
    · rw [GetAncestors, getAncestorsLoop, hf]
      simp
    · rw [GetAncestors, hf]
      exact getAncestorsLoop_chain hf
  · intro l hlast
    rcases hf : FindNode t id with _ | n
    · rw [GetAncestors, getAncestorsLoop, hf] at hlast
      simp at hlast
    · have hrw : GetAncestors t id true =
          n :: getAncestorsLoop t (t.nodes.length + 1) id := by
        rw [GetAncestors, hf]
        rfl
      rw [hrw] at hlast
      obtain ⟨l', hl', h0⟩ :=
        getAncestorsLoop_getLast hl.parentsExist hf (hl.walkLen_lt id)
      rw [hlast] at hl'
      cases hl'
      exact h0

/-- Witness for `getAncestors_spec` on the two-node tree `{(1,0),(2,1)}` at
id 2. -/
theorem getAncestors_spec_witness :
    GetAncestors ⟨[⟨1, 0, none⟩, ⟨2, 1, none⟩]⟩ 2 true =
        (FindNode ⟨[⟨1, 0, none⟩, ⟨2, 1, none⟩]⟩ 2).toList ++
          GetAncestors ⟨[⟨1, 0, none⟩, ⟨2, 1, none⟩]⟩ 2 false ∧
    (∀ nd, FindNode ⟨[⟨1, 0, none⟩, ⟨2, 1, none⟩]⟩ 2 = some nd →
      (GetAncestors ⟨[⟨1, 0, none⟩, ⟨2, 1, none⟩]⟩ 2 true).head? = some nd) ∧
    (∀ nd, FindNode ⟨[⟨1, 0, none⟩, ⟨2, 1, none⟩]⟩ 2 = some nd →
      nd.parentId = 0 → GetAncestors ⟨[⟨1, 0, none⟩, ⟨2, 1, none⟩]⟩ 2 false = []) ∧
    List.Chain' (fun a b => b.id = a.parentId)
      (GetAncestors ⟨[⟨1, 0, none⟩, ⟨2, 1, none⟩]⟩ 2 true) ∧
    (∀ l, (GetAncestors ⟨[⟨1, 0, none⟩, ⟨2, 1, none⟩]⟩ 2 true).getLast? = some l →
      l.parentId = 0) :=
  getAncestors_spec New [⟨1, 0, none⟩, ⟨2, 1, none⟩]
    ⟨[⟨1, 0, none⟩, ⟨2, 1, none⟩]⟩ (by decide) 2

/-! Lemmas about `kthAncestor` and membership in `GetDescendants`. -/

lemma kthAncestor_one {t : Tree} (j : Int) :
    kthAncestor t 1 j = (FindNode t j).map (·.parentId) := by
  rcases hf : FindNode t j with _ | n <;> simp [kthAncestor, hf]

lemma kthAncestor_add (t : Tree) (a b : Nat) (y : Int) :
    kthAncestor t (a + b) y = (kthAncestor t a y).bind (kthAncestor t b) := by
  induction a generalizing y with
  | zero => simp [kthAncestor]
  | succ a iha =>
    have hab : a + 1 + b = (a + b) + 1 := by omega
    rw [hab, kthAncestor, kthAncestor]
    rcases hf : FindNode t y with _ | n
    · rfl
    · exact iha n.parentId

lemma kthAncestor_succ_top (t : Tree) (k : Nat) (y : Int) :
    kthAncestor t (k + 1) y =
      (kthAncestor t k y).bind (fun j => (FindNode t j).map (·.parentId)) := by
  rw [kthAncestor_add t k 1]
  rcases kthAncestor t k y with _ | j
  · rfl
  · exact kthAncestor_one j

/-- Membership characterization of the fueled descendants recursion: `y` is
emitted exactly when following `parentId` links upward from `y` reaches
`id` in some number of steps `k ≥ 1` that the fuel covers and (for
positive `maxDepth`) that keeps `y` within the depth bound. -/
lemma getDescendantsRecursive_mem {t : Tree} (hnd : (ids t).Nodup) :
    ∀ (f : Nat) (id cur maxD y : Int)
      (_hg0 : ¬(maxD > 0 ∧ cur ≥ maxD)) (_hcur : cur ≥ 0),
      (y ∈ (getDescendantsRecursive t f id cur maxD).map (·.id)) ↔
      ∃ k : Nat, 1 ≤ k ∧ k ≤ f ∧ kthAncestor t k y = some id ∧
        (0 < maxD → cur + (k : Int) ≤ maxD) := by
  intro f
  induction f with
  | zero =>
    intro id cur maxD y hg0 hcur
    constructor
    · intro hy
      simp [getDescendantsRecursive] at hy
    · rintro ⟨k, h1, hk, -, -⟩
      omega
  | succ f ih =>
    intro id cur maxD y hg0 hcur
    rw [getDescendantsRecursive, if_neg hg0]
    have memchild : ∀ z : Int,
        ((∃ c ∈ GetChildren t id, c.id = z) ↔ kthAncestor t 1 z = some id) := by
      intro z
      rw [kthAncestor_one]
      constructor
      · rintro ⟨c, hcm, rfl⟩
        rcases mem_GetChildren.mp hcm with ⟨hcn, hcp⟩
        rw [FindNode_self hnd hcn]
        simp [hcp]
      · intro hz
        rcases hfz : FindNode t z with _ | c
        · rw [hfz] at hz
          cases hz
        · rw [hfz] at hz
          obtain ⟨hcn, hci⟩ := FindNode_some hfz
          exact ⟨c, mem_GetChildren.mpr ⟨hcn, by simpa using hz⟩, hci⟩
    by_cases hc : GetChildren t id = []
    · rw [if_pos hc]
      constructor
      · intro hy
        simp at hy
      · rintro ⟨k, h1, hk, hanc, -⟩
        exfalso
        rcases k with _ | k'
        · omega
        · rw [kthAncestor_succ_top] at hanc
          rcases hj : kthAncestor t k' y with _ | j
          · rw [hj] at hanc
            cases hanc
          · rw [hj] at hanc
            rw [Option.some_bind'] at hanc
            rcases hfj : FindNode t j with _ | c
            · rw [hfj] at hanc
              cases hanc
            · rw [hfj] at hanc
              have hcp : c.parentId = id := by simpa using hanc
              obtain ⟨hcn, -⟩ := FindNode_some hfj
              have : c ∈ GetChildren t id := mem_GetChildren.mpr ⟨hcn, hcp⟩
              rw [hc] at this
              cases this
    · rw [if_neg hc]
      have hstep : ∀ c ∈ GetChildren t id, ∀ k' : Nat,
          kthAncestor t k' y = some c.id → kthAncestor t (k' + 1) y = some id := by
        intro c hcm k' hanc
        rw [kthAncestor_succ_top, hanc, Option.some_bind']
        rcases mem_GetChildren.mp hcm with ⟨hcn, hcp⟩
        rw [FindNode_self hnd hcn]
        simp [hcp]
      constructor
      · intro hy
        rcases List.mem_map.mp hy with ⟨x, hx, hxy⟩
        rcases List.mem_append.mp hx with hx | hx
        · refine ⟨1, le_refl 1, by omega, (memchild y).mp ⟨x, hx, hxy⟩, ?_⟩
          intro hmd
          have := fun h => hg0 ⟨hmd, h⟩
          push_cast
          omega
        · rcases List.mem_flatten.mp hx with ⟨l, hl, hxl⟩
          rcases List.mem_map.mp hl with ⟨c, hcm, rfl⟩
          have hyc : y ∈ (getDescendantsRecursive t f c.id (cur + 1) maxD).map (·.id) :=
            List.mem_map.mpr ⟨x, hxl, hxy⟩
          by_cases hgc : maxD > 0 ∧ cur + 1 ≥ maxD
          · exfalso
            rcases f with _ | f'
            · simp [getDescendantsRecursive] at hyc
            · rw [getDescendantsRecursive, if_pos hgc] at hyc
              simp at hyc
          · obtain ⟨k', h1', hk', hanc', hdep'⟩ :=
              (ih c.id (cur + 1) maxD y hgc (by omega)).mp hyc
            refine ⟨k' + 1, by omega, by omega, hstep c hcm k' hanc', ?_⟩
            intro hmd
            have := hdep' hmd
            push_cast at this ⊢
            omega
      · rintro ⟨k, h1, hk, hanc, hdep⟩
        rcases k with _ | k'
        · omega
        · rw [kthAncestor_succ_top] at hanc
          rcases hj : kthAncestor t k' y with _ | j
          · rw [hj] at hanc
            cases hanc
          · rw [hj] at hanc
            rw [Option.some_bind'] at hanc
            rcases hfj : FindNode t j with _ | c
            · rw [hfj] at hanc
              cases hanc
            · rw [hfj] at hanc
              have hcp : c.parentId = id := by simpa using hanc
              obtain ⟨hcn, hci⟩ := FindNode_some hfj
              have hcm : c ∈ GetChildren t id := mem_GetChildren.mpr ⟨hcn, hcp⟩
              rcases k' with _ | k''
              · have hjy : y = j := by simpa [kthAncestor] using hj
                refine List.mem_map.mpr ⟨c, List.mem_append.mpr (Or.inl hcm), ?_⟩
                rw [hci, hjy]
              · have hdep'' : 0 < maxD → (cur + 1) + ((k'' + 1 : Nat) : Int) ≤ maxD := by
                  intro hmd
                  have := hdep hmd
                  push_cast at this ⊢
                  omega
                have hg1' : ¬(maxD > 0 ∧ cur + 1 ≥ maxD) := by
                  rintro ⟨hmd, hge⟩
                  have := hdep'' hmd
                  push_cast at this
                  omega
                have hyc :=
                  (ih c.id (cur + 1) maxD y hg1' (by omega)).mpr
                    ⟨k'' + 1, by omega, by omega, by rw [hci]; exact hj, hdep''⟩
                rcases List.mem_map.mp hyc with ⟨x, hxl, hxy⟩
                refine List.mem_map.mpr ⟨x, List.mem_append.mpr (Or.inr ?_), hxy⟩
                exact List.mem_flatten.mpr
                  ⟨getDescendantsRecursive t f c.id (cur + 1) maxD,
                    List.mem_map_of_mem _ hcm, hxl⟩

/-- On a walk that terminates within the fuel, `kthAncestor` can be `some`
for at most one step past the walk length (the step onto the virtual root
id 0). -/
lemma kthAncestor_le_walkLen {t : Tree} (h0 : FindNode t 0 = none) :
    ∀ {f : Nat} {k : Nat} {y z : Int}, walkLen t f y < f →
      kthAncestor t k y = some z → k ≤ walkLen t f y + 1 := by
  intro f
  induction f with
  | zero =>
    intro k y z hw _
    omega
  | succ f ih =>
    intro k y z hw hanc
    rcases k with _ | k
    · omega
    · rw [kthAncestor] at hanc
      rcases hf : FindNode t y with _ | n
      · rw [hf] at hanc
        cases hanc
      · rw [hf] at hanc
        dsimp only at hanc
        rw [walkLen, hf] at hw ⊢
        dsimp only at hw ⊢
        by_cases hp : n.parentId = 0
        · rw [if_pos hp]
          rcases k with _ | k
          · omega
          · rw [hp, kthAncestor, h0] at hanc
            cases hanc
        · rw [if_neg hp] at hw ⊢
          have := ih (k := k) (by omega) hanc
          omega

/-- C3: `GetDescendants` — negative `maxDepth` yields an empty result;
`maxDepth = 0` yields exactly the ids reachable by following children links
from `id` (any positive number of steps); positive `maxDepth` yields
exactly those reachable within `maxDepth` steps. -/
theorem getDescendants_spec (t₀ : Tree) (items : List Item) (t : Tree)
    (h : Load t₀ items = (t, .ok ())) (id maxDepth : Int) :
    (maxDepth < 0 → GetDescendants t id maxDepth = []) ∧
    (maxDepth = 0 → ∀ y : Int, (y ∈ GetDescendantsIDs t id 0 ↔
      ∃ k : Nat, 1 ≤ k ∧ kthAncestor t k y = some id)) ∧
    (0 < maxDepth → ∀ y : Int, (y ∈ GetDescendantsIDs t id maxDepth ↔
      ∃ k : Nat, 1 ≤ k ∧ (k : Int) ≤ maxDepth ∧ kthAncestor t k y = some id)) := by
  have hl : Loaded t := ⟨t₀, items, h⟩
  have hfuel : ∀ {k : Nat} {y z : Int}, kthAncestor t k y = some z →
      k ≤ t.nodes.length + 1 := by
    intro k y z hanc
    have h0 : FindNode t 0 = none := FindNode_zero hl.pos
    have hw := hl.walkLen_lt y
    have := kthAncestor_le_walkLen h0 hw hanc
    omega
  refine ⟨?_, ?_, ?_⟩
  · intro hneg
    rw [GetDescendants, if_pos hneg]
  · intro h0 y
    subst h0
    rw [GetDescendantsIDs, GetDescendants, if_neg (by omega)]
    rw [getDescendantsRecursive_mem hl.ids_nodup (t.nodes.length + 1) id 0 0 y
      (by omega) (by omega)]
    constructor
    · rintro ⟨k, h1, -, hanc, -⟩
      exact ⟨k, h1, hanc⟩
    · rintro ⟨k, h1, hanc⟩
      exact ⟨k, h1, hfuel hanc, hanc, by omega⟩
  · intro hpos y
    rw [GetDescendantsIDs, GetDescendants, if_neg (by omega)]
    rw [getDescendantsRecursive_mem hl.ids_nodup (t.nodes.length + 1) id 0 maxDepth y
      (by omega) (by omega)]
    constructor
    · rintro ⟨k, h1, -, hanc, hdep⟩
      refine ⟨k, h1, ?_, hanc⟩
      have := hdep hpos
      omega
    · rintro ⟨k, h1, hk, hanc⟩
      exact ⟨k, h1, hfuel hanc, hanc, fun _ => by omega⟩

/-- Witness for `getDescendants_spec` on the chain `{(1,0),(2,1),(3,2)}`
with `maxDepth = 1`. -/
theorem getDescendants_spec_witness :
    ((1 : Int) < 0 → GetDescendants ⟨[⟨1, 0, none⟩, ⟨2, 1, none⟩, ⟨3, 2, none⟩]⟩ 1 1 = []) ∧
    ((1 : Int) = 0 → ∀ y : Int,
      (y ∈ GetDescendantsIDs ⟨[⟨1, 0, none⟩, ⟨2, 1, none⟩, ⟨3, 2, none⟩]⟩ 1 0 ↔
        ∃ k : Nat, 1 ≤ k ∧
          kthAncestor ⟨[⟨1, 0, none⟩, ⟨2, 1, none⟩, ⟨3, 2, none⟩]⟩ k y = some 1)) ∧
    ((0 : Int) < 1 → ∀ y : Int,
      (y ∈ GetDescendantsIDs ⟨[⟨1, 0, none⟩, ⟨2, 1, none⟩, ⟨3, 2, none⟩]⟩ 1 1 ↔
        ∃ k : Nat, 1 ≤ k ∧ (k : Int) ≤ 1 ∧
          kthAncestor ⟨[⟨1, 0, none⟩, ⟨2, 1, none⟩, ⟨3, 2, none⟩]⟩ k y = some 1)) :=
  getDescendants_spec New [⟨1, 0, none⟩, ⟨2, 1, none⟩, ⟨3, 2, none⟩]
    ⟨[⟨1, 0, none⟩, ⟨2, 1, none⟩, ⟨3, 2, none⟩]⟩ (by decide) 1 1

/-! Lemmas for C7: flattening the materialized tree. -/

lemma flattenForest_mem {x : Int} : ∀ {l : List NTree},
    x ∈ flattenForest l ↔ ∃ c ∈ l, x ∈ flattenTree c := by
  intro l
  induction l with
  | nil => simp [flattenForest]
  | cons c cs ih =>
    rw [flattenForest, List.mem_append, ih]
    simp

/-- The pre-order flatten of the materialized subtree and the descendants
recursion emit the same id set (with the subtree root added), for every
fuel value: the two recursions follow the same children structure. -/
lemma flattenTree_buildTree_mem {t : Tree} :
    ∀ (f : Nat) (n : Node) (cur : Int) (x : Int),
      x ∈ flattenTree (buildTreeRecursive t f n) ↔
        (x = n.id ∨ x ∈ (getDescendantsRecursive t f n.id cur 0).map (·.id)) := by
  intro f
  induction f with
  | zero =>
    intro n cur x
    simp [buildTreeRecursive, flattenTree, flattenForest, getDescendantsRecursive]
  | succ f ih =>
    intro n cur x
    rw [buildTreeRecursive, getDescendantsRecursive,
      if_neg (by omega : ¬((0 : Int) > 0 ∧ cur ≥ 0))]
    by_cases hc : GetChildren t n.id = []
    · rw [if_pos hc, if_pos hc]
      simp [flattenTree, flattenForest]
    · rw [if_neg hc, if_neg hc, flattenTree]
      constructor
      · intro hx
        rcases List.mem_cons.mp hx with rfl | hx
        · exact Or.inl rfl
        · rcases flattenForest_mem.mp hx with ⟨bc, hbc, hxbc⟩
          rcases List.mem_map.mp hbc with ⟨c, hcm, rfl⟩
          rcases (ih c (cur + 1) x).mp hxbc with rfl | hx'
          · exact Or.inr (List.mem_map.mpr ⟨c, List.mem_append.mpr (Or.inl hcm), rfl⟩)
          · rcases List.mem_map.mp hx' with ⟨nd, hnd, rfl⟩
            exact Or.inr (List.mem_map.mpr ⟨nd, List.mem_append.mpr
              (Or.inr (List.mem_flatten.mpr
                ⟨_, List.mem_map_of_mem _ hcm, hnd⟩)), rfl⟩)
      · intro hx
        rcases hx with rfl | hx
        · exact List.mem_cons_self _ _
        · rcases List.mem_map.mp hx with ⟨nd, hnd, rfl⟩
          rcases List.mem_append.mp hnd with hnd | hnd
          · refine List.mem_cons.mpr (Or.inr (flattenForest_mem.mpr
              ⟨_, List.mem_map_of_mem _ hnd, ?_⟩))
            exact (ih nd (cur + 1) nd.id).mpr (Or.inl rfl)
          · rcases List.mem_flatten.mp hnd with ⟨l, hl, hndl⟩
            rcases List.mem_map.mp hl with ⟨c, hcm, rfl⟩
            refine List.mem_cons.mpr (Or.inr (flattenForest_mem.mpr
              ⟨_, List.mem_map_of_mem _ hcm, ?_⟩))
            exact (ih c (cur + 1) nd.id).mpr
              (Or.inr (List.mem_map.mpr ⟨nd, hndl, rfl⟩))

/-- C7: flattening the nested structure returned by `ToTree` via a
pre-order walk yields exactly `{rootID} ∪ getDescendants(rootID, 0)` as an
id set. -/
theorem toTree_flatten_spec (t₀ : Tree) (items : List Item) (t : Tree)
    (_h : Load t₀ items = (t, .ok ())) (rootID : Int) (nt : NTree)
    (hroot : ToTree t rootID = some nt) :
    ∀ x : Int, x ∈ flattenTree nt ↔
      (x = rootID ∨ x ∈ GetDescendantsIDs t rootID 0) := by
  intro x
  rw [ToTree] at hroot
  rcases hf : FindNode t rootID with _ | root
  · rw [hf] at hroot
    cases hroot
  · rw [hf] at hroot
    dsimp only at hroot
    cases hroot
    rw [GetDescendantsIDs, GetDescendants, if_neg (by omega)]
    rw [flattenTree_buildTree_mem (t.nodes.length + 1) root 0 x,
      (FindNode_some hf).2]

/-- Witness for `toTree_flatten_spec` on `{(1,0),(2,1)}` at root 1, read at
id 2. -/
theorem toTree_flatten_spec_witness :
    (2 : Int) ∈ flattenTree (.mk 1 0 none [.mk 2 1 none []]) ↔
      ((2 : Int) = 1 ∨ (2 : Int) ∈ GetDescendantsIDs ⟨[⟨1, 0, none⟩, ⟨2, 1, none⟩]⟩ 1 0) :=
  toTree_flatten_spec New [⟨1, 0, none⟩, ⟨2, 1, none⟩]
    ⟨[⟨1, 0, none⟩, ⟨2, 1, none⟩]⟩ (by decide) 1
    (.mk 1 0 none [.mk 2 1 none []]) rfl 2

/-- C10: in a multi-root tree the roots are mutual siblings: sibling lookup
is the children list of the node's parent id, and for a root that parent id
is the virtual parent 0, whose children list is exactly the roots in
children order. -/
theorem getSiblings_roots_spec (t₀ : Tree) (items : List Item) (t : Tree)
    (h : Load t₀ items = (t, .ok ())) (r : Node) (hr : r ∈ t.nodes)
    (hroot : r.parentId = 0)
    (_hmulti : 1 < (t.nodes.filter (fun n => n.parentId == 0)).length) :
    GetSiblings t r.id true = GetChildren t 0 ∧
    (∀ x, x ∈ GetSiblings t r.id true ↔ (x ∈ t.nodes ∧ x.parentId = 0)) ∧
    GetSiblings t r.id false = (GetChildren t 0).filter (fun s => s.id != r.id) := by
  have hl : Loaded t := ⟨t₀, items, h⟩
  have hfr : FindNode t r.id = some r := FindNode_self hl.ids_nodup hr
  have htrue : GetSiblings t r.id true = GetChildren t 0 := by
    rw [GetSiblings, hfr]
    dsimp only
    rw [if_pos rfl, hroot]
  refine ⟨htrue, ?_, ?_⟩
  · intro x
    rw [htrue]
    exact mem_GetChildren
  · rw [GetSiblings, hfr]
    dsimp only
    rw [if_neg (by simp), hroot]

/-- Witness for `getSiblings_roots_spec` on the two-root tree
`{(1,0),(2,0)}` at root 1. -/
theorem getSiblings_roots_spec_witness :
    GetSiblings ⟨[⟨1, 0, none⟩, ⟨2, 0, none⟩]⟩ 1 true =
        GetChildren ⟨[⟨1, 0, none⟩, ⟨2, 0, none⟩]⟩ 0 ∧
    (∀ x, x ∈ GetSiblings ⟨[⟨1, 0, none⟩, ⟨2, 0, none⟩]⟩ 1 true ↔
      (x ∈ (⟨[⟨1, 0, none⟩, ⟨2, 0, none⟩]⟩ : Tree).nodes ∧ x.parentId = 0)) ∧
    GetSiblings ⟨[⟨1, 0, none⟩, ⟨2, 0, none⟩]⟩ 1 false =
      (GetChildren ⟨[⟨1, 0, none⟩, ⟨2, 0, none⟩]⟩ 0).filter
        (fun s => s.id != 1) :=
  getSiblings_roots_spec New [⟨1, 0, none⟩, ⟨2, 0, none⟩]
    ⟨[⟨1, 0, none⟩, ⟨2, 0, none⟩]⟩ (by decide) ⟨1, 0, none⟩ (by decide) rfl
    (by decide)

/-- C9 counterexample: in the loaded tree `{(1,0)}` the root node 1 exists,
yet `GetParent 1` reports not-found (it looks up the parent id 0, which is
never a node id) — the claim that no present id reports not-found is false
for roots. -/
theorem getParent_root_counterexample :
    (Load New [⟨1, 0, none⟩]).2 = .ok () ∧
    FindNode rootOnlyTree 1 = some ⟨1, 0, none⟩ ∧
    GetParent rootOnlyTree 1 = none := by decide

/-- C9 amended: `GetParentID` reports not-found exactly when the node does
not exist; `GetParent` reports not-found exactly when the node does not
exist or is a root (its parent id 0 resolves to no node); neither raises an
error. -/
theorem getParent_not_found_spec (t₀ : Tree) (items : List Item) (t : Tree)
    (h : Load t₀ items = (t, .ok ())) (id : Int) :
    (GetParentID t id = none ↔ FindNode t id = none) ∧
    (GetParent t id = none ↔
      (FindNode t id = none ∨ ∃ nd, FindNode t id = some nd ∧ nd.parentId = 0)) := by
  have hl : Loaded t := ⟨t₀, items, h⟩
  rcases hf : FindNode t id with _ | nd
  · rw [GetParentID, GetParent, hf]
    simp
  · rw [GetParentID, GetParent, hf]
    dsimp only
    constructor
    · simp
    · by_cases hp : nd.parentId = 0
      · rw [hp, FindNode_zero hl.pos]
        simp [hf, hp]
      · rcases hq : FindNode t nd.parentId with _ | p
        · exact absurd hq (hl.parentsExist nd (FindNode_some hf).1 hp)
        · simp [hf, hq, hp]

/-- Witness for `getParent_not_found_spec` on `{(1,0),(2,1)}` at id 2. -/
theorem getParent_not_found_spec_witness :
    (GetParentID ⟨[⟨1, 0, none⟩, ⟨2, 1, none⟩]⟩ 2 = none ↔
      FindNode ⟨[⟨1, 0, none⟩, ⟨2, 1, none⟩]⟩ 2 = none) ∧
    (GetParent ⟨[⟨1, 0, none⟩, ⟨2, 1, none⟩]⟩ 2 = none ↔
      (FindNode ⟨[⟨1, 0, none⟩, ⟨2, 1, none⟩]⟩ 2 = none ∨
        ∃ nd, FindNode ⟨[⟨1, 0, none⟩, ⟨2, 1, none⟩]⟩ 2 = some nd ∧
          nd.parentId = 0)) :=
  getParent_not_found_spec New [⟨1, 0, none⟩, ⟨2, 1, none⟩]
    ⟨[⟨1, 0, none⟩, ⟨2, 1, none⟩]⟩ (by decide) 2

/-- C5: the `fromRoot` indexing is the reverse of what the claim (and the
function's own doc comment) states.  In the chain `1 ← 2 ← 4` the
self-excluded ancestor list of 4 is `[2, 1]`; with `fromRoot = true` and
depth 1 the code returns 2 — the ancestor nearest the *node* — where the
claim demands the ancestor nearest the root (1); with `fromRoot = false`
and depth 1 it returns the root 1 where the claim demands the immediate
parent 2.  The guard cases (depth ≤ 0, beyond the chain, no ancestors) do
return 0 as claimed. -/
theorem getAncestorIDAtDepth_swapped :
    (Load New [⟨1, 0, none⟩, ⟨2, 1, none⟩, ⟨4, 2, none⟩]).2 = .ok () ∧
    GetAncestorIDs chainTree 4 false = [2, 1] ∧
    GetAncestorIDAtDepth chainTree 4 1 true = 2 ∧
    GetAncestorIDAtDepth chainTree 4 2 true = 1 ∧
    GetAncestorIDAtDepth chainTree 4 1 false = 1 ∧
    GetAncestorIDAtDepth chainTree 4 2 false = 2 ∧
    GetAncestorIDAtDepth chainTree 4 0 true = 0 ∧
    GetAncestorIDAtDepth chainTree 4 3 true = 0 ∧
    GetAncestorIDAtDepth chainTree 1 1 true = 0 := by decide

/-- C1: a `Load` that fails on an integrity error does not leave the
previous state intact.  After successfully loading `{(1,0)}`, reloading the
mutual-parent input `{(1,2),(2,1)}` fails with the circular-reference
error, but afterwards `FindNode` sees the new, invalid node set (node 1 now
has parent 2 and node 2 exists), not the previously loaded tree — `Load`
cleared and repopulated the maps before running `validateTree`. -/
theorem load_failure_destroys_state :
    (Load New [⟨1, 0, none⟩]).2 = .ok () ∧
    FindNode rootOnlyTree 1 = some ⟨1, 0, none⟩ ∧
    FindNode rootOnlyTree 2 = none ∧
    circularReload.2 = .error "circular reference detected" ∧
    FindNode circularReload.1 1 = some ⟨1, 2, none⟩ ∧
    FindNode circularReload.1 2 = some ⟨2, 1, none⟩ := by decide

/-- C4 counterexample: on the spec §8 example records the formatter's final
label is `"  └ <6>"` (two leading spaces — the prefix passed down from the
last-sibling node 3 is `space ++ indent` with no continuation bar), so the
six labels are not the ones the claim lists (whose final label has three
leading spaces). -/
theorem formatTreeDisplay_example_counterexample :
    (Load New exampleItems).2 = .ok () ∧
    (FormatTreeDisplay exampleTree 1 ⟨" ", ["│", "├ ", "└ "]⟩).map (·.displayName) ≠
      ["Root", " ├ <2>", " │ ├ <4>", " │ └ <5>", " └ <3>", "   └ <6>"] := by
  decide

/-- C4 amended: on the records `{(1,0),(2,1),(3,1),(4,2),(5,2),(6,3)}` with
default ordering, `getChildren(1) = [2,3]`, `getDescendants(1,1) = [2,3]`,
`getAncestors(4,false) = [2,1]`, `getSiblings(4,false) = [5]`, and
formatting from root 1 with icons `["│","├ ","└ "]` and indent `" "` yields
exactly the six labels `Root`, ` ├ <2>`, ` │ ├ <4>`, ` │ └ <5>`, ` └ <3>`,
`  └ <6>` (two spaces before the final `└`, not three), in that order. -/
theorem formatTreeDisplay_example_spec :
    (Load New exampleItems).2 = .ok () ∧
    GetChildrenIDs exampleTree 1 = [2, 3] ∧
    GetDescendantsIDs exampleTree 1 1 = [2, 3] ∧
    GetAncestorIDs exampleTree 4 false = [2, 1] ∧
    GetSiblingsIDs exampleTree 4 false = [5] ∧
    (FormatTreeDisplay exampleTree 1 ⟨" ", ["│", "├ ", "└ "]⟩).map (·.node.id) =
      [1, 2, 4, 5, 3, 6] ∧
    (FormatTreeDisplay exampleTree 1 ⟨" ", ["│", "├ ", "└ "]⟩).map (·.displayName) =
      ["Root", " ├ <2>", " │ ├ <4>", " │ └ <5>", " └ <3>", "  └ <6>"] := by
  decide

/-! Heap-model lemmas for the aliasing claim about `buildTreeRecursive`. -/

lemma hGetChildren_lt {t : HTree}
    (hci : ∀ q ∈ t.childrenIdx, ∀ x ∈ q.2, x < t.heap.length) :
    ∀ id, ∀ c ∈ hGetChildren t id, c < t.heap.length := by
  intro id c hc
  rw [hGetChildren] at hc
  rcases hq : t.childrenIdx.find? (fun p => p.1 == id) with _ | q
  · rw [hq] at hc
    cases hc
  · rw [hq] at hc
    exact hci q (List.mem_of_find?_eq_some hq) c hc

lemma hBuildFold_inv (tlen : Nat) (next : List HNode → Nat → List HNode × Nat)
    (hnext : ∀ heap a, HeapClosed heap → tlen ≤ heap.length → a < heap.length →
      (∀ b v, heap.get? b = some v → (next heap a).1.get? b = some v) ∧
      HeapClosed (next heap a).1 ∧ heap.length ≤ (next heap a).1.length ∧
      (next heap a).2 < (next heap a).1.length) :
    ∀ (cs : List Nat) (heap : List HNode), HeapClosed heap →
      tlen ≤ heap.length → (∀ c ∈ cs, c < tlen) →
      (∀ b v, heap.get? b = some v → (hBuildFold next heap cs).1.get? b = some v) ∧
      HeapClosed (hBuildFold next heap cs).1 ∧
      heap.length ≤ (hBuildFold next heap cs).1.length ∧
      ∀ r ∈ (hBuildFold next heap cs).2, r < (hBuildFold next heap cs).1.length := by
  intro cs
  induction cs with
  | nil =>
    intro heap hc htl _
    rw [hBuildFold]
    exact ⟨fun b v h => h, hc, le_refl _, by simp⟩
  | cons a rest ih =>
    intro heap hc htl hcs
    rw [hBuildFold]
    obtain ⟨hext1, hc1, hlen1, hr1⟩ :=
      hnext heap a hc htl (lt_of_lt_of_le (hcs a (List.mem_cons_self a rest)) htl)
    obtain ⟨hext2, hc2, hlen2, hr2⟩ :=
      ih (next heap a).1 hc1 (le_trans htl hlen1)
        (fun c hcm => hcs c (List.mem_cons_of_mem a hcm))
    refine ⟨fun b v h => hext2 b v (hext1 b v h), hc2, le_trans hlen1 hlen2, ?_⟩
    intro r hr
    rcases List.mem_cons.mp hr with rfl | hr
    · exact lt_of_lt_of_le hr1 hlen2
    · exact hr2 r hr

lemma hBuildRec_inv (t : HTree)
    (hci : ∀ q ∈ t.childrenIdx, ∀ x ∈ q.2, x < t.heap.length) :
    ∀ (f : Nat) (heap : List HNode) (a : Nat), HeapClosed heap →
      t.heap.length ≤ heap.length → a < heap.length →
      (∀ b v, heap.get? b = some v → (hBuildRec t f heap a).1.get? b = some v) ∧
      HeapClosed (hBuildRec t f heap a).1 ∧
      heap.length ≤ (hBuildRec t f heap a).1.length ∧
      (hBuildRec t f heap a).2 < (hBuildRec t f heap a).1.length := by
  intro f
  induction f with
  | zero =>
    intro heap a hc htl ha
    rw [hBuildRec]
    exact ⟨fun b v h => h, hc, le_refl _, ha⟩
  | succ f ih =>
    intro heap a hc htl ha
    rw [hBuildRec]
    rcases hga : heap.get? a with _ | nd
    · exact ⟨fun b v h => h, hc, le_refl _, ha⟩
    · dsimp only
      by_cases hcs0 : hGetChildren t nd.id = []
      · rw [if_pos hcs0]
        exact ⟨fun b v h => h, hc, le_refl _, ha⟩
      · rw [if_neg hcs0]
        obtain ⟨hext, hcf, hlenf, hrf⟩ :=
          hBuildFold_inv t.heap.length (hBuildRec t f)
            (fun heap' a' hc' htl' ha' => ih heap' a' hc' htl' ha')
            (hGetChildren t nd.id) heap hc htl
            (hGetChildren_lt hci nd.id)
        refine ⟨?_, ?_, ?_, ?_⟩
        · intro b v h
          have h1 := hext b v h
          have hb : b < (hBuildFold (hBuildRec t f) heap
              (hGetChildren t nd.id)).1.length := by
            rcases List.get?_eq_some.mp h1 with ⟨hb, -⟩
            exact hb
          rw [List.get?_append hb]
          exact h1
        · intro cell hcell x hx
          rw [List.length_append, List.length_singleton]
          rcases List.mem_append.mp hcell with hcell | hcell
          · exact lt_of_lt_of_le (hcf cell hcell x hx) (by omega)
          · rcases List.mem_singleton.mp hcell with rfl
            exact lt_of_lt_of_le (hrf x hx) (by omega)
        · rw [List.length_append, List.length_singleton]
          omega
        · rw [List.length_append, List.length_singleton]
          omega

/-- `hLoad` only ever appends fresh cells: every already-allocated node
object reads back unchanged after any later `Load`. -/
lemma hLoad_heap_extends (t : HTree) (items : List Item) :
    ∀ b v, t.heap.get? b = some v → (hLoad t items).1.heap.get? b = some v := by
  intro b v h
  rw [hLoad]
  split
  · exact h
  · split
    · exact h
    · split
      · have hb : b < t.heap.length := by
          rcases List.get?_eq_some.mp h with ⟨hb, -⟩
          exact hb
        rw [hLoadResult]
        dsimp only
        rw [List.get?_append hb]
        exact h
      · have hb : b < t.heap.length := by
          rcases List.get?_eq_some.mp h with ⟨hb, -⟩
          exact hb
        rw [hLoadResult]
        dsimp only
        rw [List.get?_append hb]
        exact h

lemma mapM_option_congr {α β : Type} {g₁ g₂ : α → Option β} :
    ∀ {l : List α}, (∀ a ∈ l, g₁ a = g₂ a) → l.mapM g₁ = l.mapM g₂ := by
  intro l
  induction l with
  | nil => intro _; rfl
  | cons a rest ih =>
    intro hag
    rw [List.mapM_cons, List.mapM_cons, hag a (List.mem_cons_self a rest),
      ih (fun x hx => hag x (List.mem_cons_of_mem a hx))]

/-- Reading a structure rooted at an already-allocated address is
insensitive to heap extension. -/
lemma hReadTree_extends {heap₁ heap₂ : List HNode}
    (hext : ∀ b v, heap₁.get? b = some v → heap₂.get? b = some v)
    (hclosed : HeapClosed heap₁) :
    ∀ (f : Nat) (a : Nat), a < heap₁.length →
      hReadTree heap₂ f a = hReadTree heap₁ f a := by
  intro f
  induction f with
  | zero =>
    intro a _
    rfl
  | succ f ih =>
    intro a ha
    have h1 : heap₁.get? a = some (heap₁.get ⟨a, ha⟩) := List.get?_eq_get ha
    have h2 : heap₂.get? a = some (heap₁.get ⟨a, ha⟩) := hext _ _ h1
    rw [hReadTree, hReadTree, h1, h2]
    dsimp only
    rw [mapM_option_congr]
    intro x hx
    exact ih x (hclosed (heap₁.get ⟨a, ha⟩) (List.get_mem heap₁ a ha) x hx)

/-- C8 counterexample: in the single-node tree `{(1,0)}` the live index
stores node 1 at address 0, and `hToTree` returns that very address — a
childless node is returned by pointer, not copied, so the materialized
structure aliases the live index's node storage. -/
theorem toTree_leaf_aliases_index :
    (hLoad hNew [⟨1, 0, some "Root"⟩]).2 = .ok () ∧
    hFindAddr (hLoad hNew [⟨1, 0, some "Root"⟩]).1 1 = some 0 ∧
    (hToTree (hLoad hNew [⟨1, 0, some "Root"⟩]).1 1).2 = some 0 := by decide

/-- C8 amended: internal nodes of the materialized structure are fresh
copies while leaf nodes alias the live storage, but no later `Load` can
retroactively mutate an already-returned structure: `Load` only allocates
fresh cells, so walking the returned root address reads the same nested
value before and after any subsequent `Load`, whatever its input or
outcome. -/
theorem toTree_unaffected_by_later_load (t : HTree) (hwf : HWF t)
    (rootID : Int) (heap₁ : List HNode) (r : Nat)
    (hmat : hToTree t rootID = (heap₁, some r)) (items : List Item) :
    ∀ f : Nat,
      hReadTree (hLoad ⟨heap₁, t.nodesIdx, t.childrenIdx⟩ items).1.heap f r =
        hReadTree heap₁ f r := by
  intro f
  obtain ⟨hhc, hni, hcidx⟩ := hwf
  rw [hToTree] at hmat
  rcases hfa : hFindAddr t rootID with _ | a
  · rw [hfa] at hmat
    cases (Prod.mk.injEq _ _ _ _ ▸ hmat).2
  · rw [hfa] at hmat
    dsimp only at hmat
    have ha : a < t.heap.length := by
      rw [hFindAddr] at hfa
      rcases hq : t.nodesIdx.find? (fun p => p.1 == rootID) with _ | q
      · rw [hq] at hfa
        cases hfa
      · rw [hq] at hfa
        have : q.2 = a := by simpa using hfa
        exact this ▸ hni q (List.mem_of_find?_eq_some hq)
    obtain ⟨-, hc1, -, hr1⟩ :=
      hBuildRec_inv t hcidx (t.nodesIdx.length + 1) t.heap a hhc (le_refl _) ha
    have h1 : (hBuildRec t (t.nodesIdx.length + 1) t.heap a).1 = heap₁ :=
      (Prod.mk.injEq _ _ _ _ ▸ hmat).1
    have h2 : (hBuildRec t (t.nodesIdx.length + 1) t.heap a).2 = r := by
      have := (Prod.mk.injEq _ _ _ _ ▸ hmat).2
      simpa using this
    rw [h1] at hc1
    rw [h1, h2] at hr1
    exact hReadTree_extends
      (hLoad_heap_extends ⟨heap₁, t.nodesIdx, t.childrenIdx⟩ items) hc1 f r hr1

/-- Witness for `toTree_unaffected_by_later_load`: materialize root 1 of the
two-node tree `{(1,0),(2,1)}` (copy at address 2, leaf child aliased at
address 1), then reload with `{(5,0)}`; reading address 2 (with fuel 3) is
unchanged. -/
theorem toTree_unaffected_by_later_load_witness :
    hReadTree
        (hLoad
          ⟨[⟨1, 0, some "Root", []⟩, ⟨2, 1, some "C", []⟩,
              ⟨1, 0, some "Root", [1]⟩],
            (hLoad hNew [⟨1, 0, some "Root"⟩, ⟨2, 1, some "C"⟩]).1.nodesIdx,
            (hLoad hNew [⟨1, 0, some "Root"⟩, ⟨2, 1, some "C"⟩]).1.childrenIdx⟩
          [⟨5, 0, some "New"⟩]).1.heap 3 2 =
      hReadTree
        [⟨1, 0, some "Root", []⟩, ⟨2, 1, some "C", []⟩,
          ⟨1, 0, some "Root", [1]⟩] 3 2 :=
  toTree_unaffected_by_later_load
    (hLoad hNew [⟨1, 0, some "Root"⟩, ⟨2, 1, some "C"⟩]).1
    (by unfold HWF HeapClosed; decide) 1
    [⟨1, 0, some "Root", []⟩, ⟨2, 1, some "C", []⟩, ⟨1, 0, some "Root", [1]⟩]
    2 (by decide) [⟨5, 0, some "New"⟩] 3

end tree
